import Mathlib

set_option maxHeartbeats 1000000
set_option linter.unusedSectionVars false
set_option linter.unusedVariables false

/-!
Shallow embedding of the `Counter` multiset library (`src/lib.rs`).

A `Counter<T, N>` owns a `HashMap<T, N>` plus a materialized zero. It is
embedded as an association list `List (K × N)` with pairwise-distinct keys
standing for the backing map; the unspecified iteration order of the hash
map corresponds to the list order, so theorems quantifying over all
association lists cover all iteration orders. Counts stay generic in `N`
(ordered, with the algebraic operations each Rust impl block demands), so
both unsigned (`Nat`) and signed (`Int`) instantiations are covered.
-/

namespace Counter

variable {K N : Type}

/-- Association-list lookup: the value of the first entry carrying the key
(`HashMap::get`). -/
def lookupKV [DecidableEq K] : List (K × N) → K → Option N
  | [], _ => none
  | p :: rest, k => if p.1 = k then some p.2 else lookupKV rest k

/-- Write a value for a key: replace the first entry in place, or append a
fresh entry (`HashMap::insert`, or a write through an occupied entry). -/
def setKV [DecidableEq K] : List (K × N) → K → N → List (K × N)
  | [], k, v => [(k, v)]
  | p :: rest, k, v => if p.1 = k then (k, v) :: rest else p :: setKV rest k v

/-- Remove the entries carrying the key (`HashMap::remove`; on distinct-key
stores this removes the single entry). -/
def removeKV [DecidableEq K] : List (K × N) → K → List (K × N)
  | [], _ => []
  | p :: rest, k => if p.1 = k then removeKV rest k else p :: removeKV rest k

/-- The stored keys (`HashMap::keys`). -/
def keys (m : List (K × N)) : List K := m.map Prod.fst

/-- `Index::index` (src/lib.rs:1090-1092): the stored count, or the zero
sentinel for a missing key; the store is not touched. -/
def index [DecidableEq K] [Zero N] (m : List (K × N)) (k : K) : N :=
  (lookupKV m k).getD 0

/-- `IndexMut::index_mut` (src/lib.rs:1132-1134):
`self.map.entry(key.to_owned()).or_insert_with(N::zero)`. The embedding
returns the store after the entry call materialized a zero entry for a
missing key. -/
def index_mut [DecidableEq K] [Zero N] (m : List (K × N)) (k : K) : List (K × N) :=
  match lookupKV m k with
  | some _ => m
  | none => m ++ [(k, 0)]

/-- One iteration of the `update` loop (src/lib.rs:365-368):
`entry(item).or_insert_with(zero)` then `*entry += one`. -/
def incr [DecidableEq K] [Zero N] [One N] [Add N]
    (m : List (K × N)) (item : K) : List (K × N) :=
  setKV m item ((lookupKV m item).getD 0 + 1)

/-- `update` (src/lib.rs:361-369). -/
def update [DecidableEq K] [Zero N] [One N] [Add N]
    (m : List (K × N)) (items : List K) : List (K × N) :=
  items.foldl incr m

/-- `init` (src/lib.rs:351-358): a new empty counter updated with the
iterable. -/
def init [DecidableEq K] [Zero N] [One N] [Add N] (items : List K) : List (K × N) :=
  update [] items

/-- One iteration of the `subtract` loop (src/lib.rs:389-405): if the item
is present, decrement when the count is above zero, then remove the entry
exactly when the resulting (or untouched) count equals zero. -/
def subtractOne [DecidableEq K] [LinearOrder N] [Zero N] [One N] [Sub N]
    (m : List (K × N)) (item : K) : List (K × N) :=
  match lookupKV m item with
  | none => m
  | some v =>
    let v2 := if 0 < v then v - 1 else v
    if v2 = 0 then removeKV m item else setKV m item v2

/-- `subtract` (src/lib.rs:389-405). -/
def subtract [DecidableEq K] [LinearOrder N] [Zero N] [One N] [Sub N]
    (m : List (K × N)) (items : List K) : List (K × N) :=
  items.foldl subtractOne m

/-- One iteration of the `sub_assign` loop (src/lib.rs:709-726): when the
left count is at least the right one subtract in place, otherwise mark for
removal; additionally remove when the resulting count equals zero. -/
def sub_pair [DecidableEq K] [LinearOrder N] [Zero N] [Sub N]
    (m : List (K × N)) (kv : K × N) : List (K × N) :=
  match lookupKV m kv.1 with
  | none => m
  | some v =>
    if kv.2 ≤ v then
      let v2 := v - kv.2
      if v2 = 0 then removeKV m kv.1 else setKV m kv.1 v2
    else removeKV m kv.1

/-- `SubAssign::sub_assign` for counters (src/lib.rs:709-726). -/
def sub_assign [DecidableEq K] [LinearOrder N] [Zero N] [Sub N]
    (a b : List (K × N)) : List (K × N) :=
  b.foldl sub_pair a

/-- `Sub::sub` for counters (src/lib.rs:755-758): `self -= rhs; self`. -/
def sub [DecidableEq K] [LinearOrder N] [Zero N] [Sub N]
    (a b : List (K × N)) : List (K × N) :=
  sub_assign a b

/-- The `bitand` loop (src/lib.rs:839-850): iterate over the left map;
whenever `rhs.remove(&key)` yields a count, insert the minimum into the
fresh output counter. -/
def bitandGo [DecidableEq K] [LinearOrder N] :
    List (K × N) → List (K × N) → List (K × N) → List (K × N)
  | [], _, acc => acc
  | kv :: rest, rhs, acc =>
    match lookupKV rhs kv.1 with
    | some w => bitandGo rest (removeKV rhs kv.1) (setKV acc kv.1 (min kv.2 w))
    | none => bitandGo rest rhs acc

/-- `BitAnd::bitand` (src/lib.rs:839-850). -/
def bitand [DecidableEq K] [LinearOrder N] (a b : List (K × N)) : List (K × N) :=
  bitandGo a b []

/-- One iteration of the `bitand_assign` loop (src/lib.rs:874-878):
insert the drained right entry whenever its count is below `self[&key]`
(the zero-defaulting read). -/
def bitand_assign_pair [DecidableEq K] [LinearOrder N] [Zero N]
    (a : List (K × N)) (kv : K × N) : List (K × N) :=
  if kv.2 < (lookupKV a kv.1).getD 0 then setKV a kv.1 kv.2 else a

/-- `BitAndAssign::bitand_assign` (src/lib.rs:873-879). -/
def bitand_assign [DecidableEq K] [LinearOrder N] [Zero N]
    (a b : List (K × N)) : List (K × N) :=
  b.foldl bitand_assign_pair a

/-- One iteration of the `bitor` loop (src/lib.rs:904-928):
`entry(key).or_insert_with(zero)`, then overwrite with the right count when
`rhs_value >= *entry`. -/
def bitor_pair [DecidableEq K] [LinearOrder N] [Zero N]
    (m : List (K × N)) (kv : K × N) : List (K × N) :=
  match lookupKV m kv.1 with
  | some v => if v ≤ kv.2 then setKV m kv.1 kv.2 else m
  | none => if (0 : N) ≤ kv.2 then setKV (setKV m kv.1 0) kv.1 kv.2 else setKV m kv.1 0

/-- `BitOr::bitor` (src/lib.rs:904-928). -/
def bitor [DecidableEq K] [LinearOrder N] [Zero N]
    (a b : List (K × N)) : List (K × N) :=
  b.foldl bitor_pair a

/-- One iteration of the `bitor_assign` loop (src/lib.rs:952-956):
insert the drained right entry whenever its count is above `self[&key]`. -/
def bitor_assign_pair [DecidableEq K] [LinearOrder N] [Zero N]
    (a : List (K × N)) (kv : K × N) : List (K × N) :=
  if (lookupKV a kv.1).getD 0 < kv.2 then setKV a kv.1 kv.2 else a

/-- `BitOrAssign::bitor_assign` (src/lib.rs:951-957). -/
def bitor_assign [DecidableEq K] [LinearOrder N] [Zero N]
    (a b : List (K × N)) : List (K × N) :=
  b.foldl bitor_assign_pair a

/-- `is_superset` (src/lib.rs:782-789): `self[key] >= other[key]` over the
chained key lists of both counters. -/
def is_superset [DecidableEq K] [LinearOrder N] [Zero N]
    (a b : List (K × N)) : Bool :=
  (keys a ++ keys b).all fun k => decide (index b k ≤ index a k)

/-- `is_subset` (src/lib.rs:807-814): `self[key] <= other[key]` over the
chained key lists of both counters. -/
def is_subset [DecidableEq K] [LinearOrder N] [Zero N]
    (a b : List (K × N)) : Bool :=
  (keys a ++ keys b).all fun k => decide (index a k ≤ index b k)

/-- The ordering realized by the `most_common_tiebreaker` comparator
`b_count.cmp(a_count).then(a_item.cmp(b_item))` (src/lib.rs:442-457,
instantiated with `Ord::cmp` at src/lib.rs:486-488): count descending,
then key ascending. On distinct-key stores this comparator is a linear
order, so the sort result is unique and independent of sort algorithm and
of the hash-map iteration order. -/
def mLe [LinearOrder K] [LinearOrder N] (p q : K × N) : Prop :=
  q.2 < p.2 ∨ (p.2 = q.2 ∧ p.1 ≤ q.1)

instance [LinearOrder K] [LinearOrder N] : DecidableRel (mLe (K := K) (N := N)) :=
  fun p q => by unfold mLe; infer_instance

/-- `most_common_ordered` (src/lib.rs:486-488): sort the pairs by the
comparator above. -/
def most_common_ordered [LinearOrder K] [LinearOrder N]
    (m : List (K × N)) : List (K × N) :=
  List.insertionSort mLe m

/-- The heap order on the scanned items `(Reverse(count), key)` of
`k_most_common_ordered` (src/lib.rs:541): lexicographic on the reversed
count, then the key. -/
def hLe [LinearOrder K] [LinearOrder N] (p q : N × K) : Prop :=
  q.1 < p.1 ∨ (p.1 = q.1 ∧ p.2 ≤ q.2)

/-- The strict heap order: `p` precedes `q` as `(Reverse(count), key)`. -/
def hLt [LinearOrder K] [LinearOrder N] (p q : N × K) : Prop :=
  q.1 < p.1 ∨ (p.1 = q.1 ∧ p.2 < q.2)

instance [LinearOrder K] [LinearOrder N] : DecidableRel (hLe (K := K) (N := N)) :=
  fun p q => by unfold hLe; infer_instance

instance [LinearOrder K] [LinearOrder N] : DecidableRel (hLt (K := K) (N := N)) :=
  fun p q => by unfold hLt; infer_instance

/-- `BinaryHeap::peek` on the modelled heap content: a maximal element in
the heap order, `none` on the empty heap (the `expect("the heap is empty")`
branch, src/lib.rs:554). On distinct items the maximum is unique, so the
content-level model captures the binary heap exactly. -/
def heapRoot [LinearOrder K] [LinearOrder N] : List (N × K) → Option (N × K)
  | [] => none
  | x :: xs => some (xs.foldl (fun a b => if hLe a b then b else a) x)

/-- Remove the first occurrence of an element (`List.erase`, phrased with
decidable equality). -/
def eraseItem {A : Type} [DecidableEq A] : List A → A → List A
  | [], _ => []
  | y :: ys, x => if y = x then ys else y :: eraseItem ys x

/-- One iteration of the scan loop (src/lib.rs:551-558): peek the root and
replace it when the candidate is strictly smaller in the heap order (the
content of the heap after `*root = item` is the old content with the root
replaced by the item). -/
def kStep [LinearOrder K] [LinearOrder N]
    (heap : List (N × K)) (x : N × K) : Option (List (N × K)) :=
  match heapRoot heap with
  | none => none
  | some root => some (if hLt x root then x :: eraseItem heap root else heap)

/-- The scan phase of `k_most_common_ordered`: fold `kStep` over the
remaining items, failing if the peek ever observes an empty heap. -/
def kScan [LinearOrder K] [LinearOrder N] :
    List (N × K) → List (N × K) → Option (List (N × K))
  | heap, [] => some heap
  | heap, x :: rest =>
    match kStep heap x with
    | none => none
    | some h2 => kScan h2 rest

/-- `k_most_common_ordered` (src/lib.rs:524-566): empty for `k == 0`, the
full ranking for `k >= len`, otherwise seed a heap with the first `k`
items `(Reverse(count), key)`, scan the rest, and drain into sorted order
(`into_sorted_vec`, ascending in the heap order). `none` models the fatal
`expect` on an empty heap. -/
def k_most_common_ordered [LinearOrder K] [LinearOrder N]
    (m : List (K × N)) (k : Nat) : Option (List (K × N)) :=
  if k = 0 then some []
  else if m.length ≤ k then some (most_common_ordered m)
  else
    let items := m.map fun p => (p.2, p.1)
    match kScan (items.take k) (items.drop k) with
    | none => none
    | some heap => some ((List.insertionSort hLe heap).map fun q => (q.2, q.1))

/-! ### Basic store lemmas -/

section StoreLemmas

variable [DecidableEq K]

theorem keys_cons (p : K × N) (rest : List (K × N)) :
    keys (p :: rest) = p.1 :: keys rest := rfl

theorem mem_keys_of_mem {kv : K × N} {m : List (K × N)} (h : kv ∈ m) :
    kv.1 ∈ keys m :=
  List.mem_map_of_mem Prod.fst h

@[simp] theorem lookupKV_setKV_self (m : List (K × N)) (k : K) (v : N) :
    lookupKV (setKV m k v) k = some v := by
  induction m with
  | nil => simp [setKV, lookupKV]
  | cons p rest ih =>
    by_cases h : p.1 = k
    · simp [setKV, h, lookupKV]
    · simp [setKV, h, lookupKV, ih]

@[simp] theorem lookupKV_setKV_ne (m : List (K × N)) (k k2 : K) (v : N)
    (h : k2 ≠ k) : lookupKV (setKV m k v) k2 = lookupKV m k2 := by
  have hne : ¬ k = k2 := fun hk => h hk.symm
  induction m with
  | nil => simp [setKV, lookupKV, hne]
  | cons p rest ih =>
    by_cases hp : p.1 = k
    · subst hp
      simp [setKV, lookupKV, hne]
    · simp only [setKV, if_neg hp, lookupKV, ih]

@[simp] theorem lookupKV_removeKV_self (m : List (K × N)) (k : K) :
    lookupKV (removeKV m k) k = none := by
  induction m with
  | nil => simp [removeKV, lookupKV]
  | cons p rest ih =>
    by_cases h : p.1 = k
    · simp [removeKV, h, ih]
    · simp [removeKV, h, lookupKV, ih]

@[simp] theorem lookupKV_removeKV_ne (m : List (K × N)) (k k2 : K)
    (h : k2 ≠ k) : lookupKV (removeKV m k) k2 = lookupKV m k2 := by
  induction m with
  | nil => simp [removeKV]
  | cons p rest ih =>
    by_cases hp : p.1 = k
    · subst hp
      have hne : ¬ p.1 = k2 := fun hk => h hk.symm
      simp [removeKV, lookupKV, hne, ih]
    · simp only [removeKV, if_neg hp, lookupKV, ih]

theorem lookupKV_eq_none_of_not_mem_keys {m : List (K × N)} {k : K}
    (h : k ∉ keys m) : lookupKV m k = none := by
  induction m with
  | nil => rfl
  | cons p rest ih =>
    rw [keys_cons, List.mem_cons] at h
    push_neg at h
    rw [lookupKV, if_neg (fun hp => h.1 hp.symm), ih h.2]

theorem mem_keys_of_lookupKV {m : List (K × N)} {k : K} {v : N}
    (h : lookupKV m k = some v) : k ∈ keys m := by
  by_contra hk
  rw [lookupKV_eq_none_of_not_mem_keys hk] at h
  cases h

theorem eq_nil_of_forall_lookupKV_none {m : List (K × N)}
    (h : ∀ k, lookupKV m k = none) : m = [] := by
  cases m with
  | nil => rfl
  | cons p rest =>
    have := h p.1
    rw [lookupKV, if_pos rfl] at this
    cases this

end StoreLemmas

/-! ### Fold machinery: loops that touch one key per iteration -/

section FoldMachinery

variable [DecidableEq K]

/-- A loop body that rewrites only the key of the pair it consumes leaves
every other key unchanged across the whole fold. -/
theorem foldl_lookupKV_untouched
    (f : List (K × N) → K × N → List (K × N))
    (hf : ∀ m kv k2, k2 ≠ kv.1 → lookupKV (f m kv) k2 = lookupKV m k2)
    (b : List (K × N)) (m : List (K × N)) (k2 : K)
    (hk : ∀ kv ∈ b, kv.1 ≠ k2) :
    lookupKV (b.foldl f m) k2 = lookupKV m k2 := by
  induction b generalizing m with
  | nil => rfl
  | cons p rest ih =>
    rw [List.foldl_cons, ih (f m p) (fun kv h => hk kv (List.mem_cons_of_mem p h))]
    exact hf m p k2 (hk p (List.mem_cons_self p rest)).symm

/-- Folding a loop body whose effect on its own key is the abstract map `g`
over entries with pairwise-distinct keys applies `g` once to each key. -/
theorem foldl_lookupKV_touched
    (f : List (K × N) → K × N → List (K × N)) (g : Option N → N → Option N)
    (hf : ∀ m kv k2, k2 ≠ kv.1 → lookupKV (f m kv) k2 = lookupKV m k2)
    (hg : ∀ m kv, lookupKV (f m kv) kv.1 = g (lookupKV m kv.1) kv.2)
    (b : List (K × N)) (m : List (K × N)) (hb : (keys b).Nodup)
    (kv : K × N) (hkv : kv ∈ b) :
    lookupKV (b.foldl f m) kv.1 = g (lookupKV m kv.1) kv.2 := by
  induction b generalizing m with
  | nil => cases hkv
  | cons p rest ih =>
    rw [keys_cons, List.nodup_cons] at hb
    rw [List.foldl_cons]
    rcases List.mem_cons.mp hkv with heq | hmem
    · rw [heq]
      rw [foldl_lookupKV_untouched f hf rest (f m p) p.1 ?hfresh]
      · exact hg m p
      case hfresh =>
        intro q hq hq1
        exact hb.1 (hq1 ▸ mem_keys_of_mem hq)
    · by_cases he : kv.1 = p.1
      · exact absurd (he ▸ mem_keys_of_mem hmem) hb.1
      · rw [ih (f m p) hb.2 hmem, hf m p kv.1 he]

end FoldMachinery

/-! ### Per-key effect of the merge loops -/

section MergeLoops

variable [DecidableEq K] [LinearOrder N]

/-- Per-key effect of one `sub_assign` iteration on its own key. -/
def gSub [Zero N] [Sub N] (ov : Option N) (w : N) : Option N :=
  match ov with
  | none => none
  | some v => if w ≤ v then (if v - w = 0 then none else some (v - w)) else none

theorem sub_pair_untouched [Zero N] [Sub N]
    (m : List (K × N)) (kv : K × N) (k2 : K) (h : k2 ≠ kv.1) :
    lookupKV (sub_pair m kv) k2 = lookupKV m k2 := by
  unfold sub_pair
  cases hv : lookupKV m kv.1 with
  | none => rfl
  | some v =>
    by_cases h1 : kv.2 ≤ v
    · by_cases h2 : v - kv.2 = 0 <;>
        simp [h1, h2, lookupKV_removeKV_ne _ _ _ h, lookupKV_setKV_ne _ _ _ _ h]
    · simp [h1, lookupKV_removeKV_ne _ _ _ h]


theorem sub_pair_touched [Zero N] [Sub N] (m : List (K × N)) (kv : K × N) :
    lookupKV (sub_pair m kv) kv.1 = gSub (lookupKV m kv.1) kv.2 := by
  unfold sub_pair gSub
  cases hv : lookupKV m kv.1 with
  | none => simpa using hv
  | some v =>
    by_cases h1 : kv.2 ≤ v
    · by_cases h2 : v - kv.2 = 0 <;> simp [h1, h2]
    · simp [h1]

theorem sub_assign_lookup [Zero N] [Sub N] (a b : List (K × N))
    (hb : (keys b).Nodup) (kv : K × N) (hkv : kv ∈ b) :
    lookupKV (sub_assign a b) kv.1 = gSub (lookupKV a kv.1) kv.2 :=
  foldl_lookupKV_touched sub_pair gSub
    (fun m p k2 h => sub_pair_untouched m p k2 h)
    (fun m p => sub_pair_touched m p) b a hb kv hkv

theorem sub_assign_lookup_of_not_key [Zero N] [Sub N] (a b : List (K × N))
    (k : K) (hk : ∀ p ∈ b, p.1 ≠ k) :
    lookupKV (sub_assign a b) k = lookupKV a k :=
  foldl_lookupKV_untouched sub_pair
    (fun m p k2 h => sub_pair_untouched m p k2 h) b a k hk

/-- Per-key effect of one `bitor` iteration on its own key. -/
def gOr [Zero N] (ov : Option N) (w : N) : Option N :=
  match ov with
  | none => some (max 0 w)
  | some v => some (max v w)

theorem bitor_pair_untouched [Zero N]
    (m : List (K × N)) (kv : K × N) (k2 : K) (h : k2 ≠ kv.1) :
    lookupKV (bitor_pair m kv) k2 = lookupKV m k2 := by
  unfold bitor_pair
  cases hv : lookupKV m kv.1 with
  | none =>
    by_cases h1 : (0 : N) ≤ kv.2 <;>
      simp [h1, lookupKV_setKV_ne _ _ _ _ h]
  | some v =>
    by_cases h1 : v ≤ kv.2 <;> simp [h1, lookupKV_setKV_ne _ _ _ _ h]

theorem bitor_pair_touched [Zero N] (m : List (K × N)) (kv : K × N) :
    lookupKV (bitor_pair m kv) kv.1 = gOr (lookupKV m kv.1) kv.2 := by
  unfold bitor_pair gOr
  cases hv : lookupKV m kv.1 with
  | none =>
    by_cases h1 : (0 : N) ≤ kv.2
    · simp [h1, max_eq_right h1]
    · simp [h1, max_eq_left (le_of_not_le h1)]
  | some v =>
    by_cases h1 : v ≤ kv.2
    · simp [h1, max_eq_right h1]
    · simp [h1, hv, max_eq_left (le_of_not_le h1)]

theorem bitor_lookup [Zero N] (a b : List (K × N))
    (hb : (keys b).Nodup) (kv : K × N) (hkv : kv ∈ b) :
    lookupKV (bitor a b) kv.1 = gOr (lookupKV a kv.1) kv.2 :=
  foldl_lookupKV_touched bitor_pair gOr
    (fun m p k2 h => bitor_pair_untouched m p k2 h)
    (fun m p => bitor_pair_touched m p) b a hb kv hkv

theorem bitor_lookup_of_not_key [Zero N] (a b : List (K × N))
    (k : K) (hk : ∀ p ∈ b, p.1 ≠ k) :
    lookupKV (bitor a b) k = lookupKV a k :=
  foldl_lookupKV_untouched bitor_pair
    (fun m p k2 h => bitor_pair_untouched m p k2 h) b a k hk

/-- Per-key effect of one `bitor_assign` iteration on its own key. -/
def gOrAssign [Zero N] (ov : Option N) (w : N) : Option N :=
  match ov with
  | none => if 0 < w then some w else none
  | some v => if v < w then some w else some v

theorem bitor_assign_pair_untouched [Zero N]
    (m : List (K × N)) (kv : K × N) (k2 : K) (h : k2 ≠ kv.1) :
    lookupKV (bitor_assign_pair m kv) k2 = lookupKV m k2 := by
  unfold bitor_assign_pair
  by_cases h1 : (lookupKV m kv.1).getD 0 < kv.2 <;>
    simp [h1, lookupKV_setKV_ne _ _ _ _ h]

theorem bitor_assign_pair_touched [Zero N] (m : List (K × N)) (kv : K × N) :
    lookupKV (bitor_assign_pair m kv) kv.1 = gOrAssign (lookupKV m kv.1) kv.2 := by
  unfold bitor_assign_pair gOrAssign
  cases hv : lookupKV m kv.1 with
  | none => by_cases h1 : (0 : N) < kv.2 <;> simp [h1, hv]
  | some v => by_cases h1 : v < kv.2 <;> simp [h1, hv]

theorem bitor_assign_lookup [Zero N] (a b : List (K × N))
    (hb : (keys b).Nodup) (kv : K × N) (hkv : kv ∈ b) :
    lookupKV (bitor_assign a b) kv.1 = gOrAssign (lookupKV a kv.1) kv.2 :=
  foldl_lookupKV_touched bitor_assign_pair gOrAssign
    (fun m p k2 h => bitor_assign_pair_untouched m p k2 h)
    (fun m p => bitor_assign_pair_touched m p) b a hb kv hkv

theorem bitor_assign_lookup_of_not_key [Zero N] (a b : List (K × N))
    (k : K) (hk : ∀ p ∈ b, p.1 ≠ k) :
    lookupKV (bitor_assign a b) k = lookupKV a k :=
  foldl_lookupKV_untouched bitor_assign_pair
    (fun m p k2 h => bitor_assign_pair_untouched m p k2 h) b a k hk

/-- Per-key effect of one `bitand_assign` iteration on its own key. -/
def gAndAssign [Zero N] (ov : Option N) (w : N) : Option N :=
  match ov with
  | none => if w < 0 then some w else none
  | some v => if w < v then some w else some v

theorem bitand_assign_pair_untouched [Zero N]
    (m : List (K × N)) (kv : K × N) (k2 : K) (h : k2 ≠ kv.1) :
    lookupKV (bitand_assign_pair m kv) k2 = lookupKV m k2 := by
  unfold bitand_assign_pair
  by_cases h1 : kv.2 < (lookupKV m kv.1).getD 0 <;>
    simp [h1, lookupKV_setKV_ne _ _ _ _ h]

theorem bitand_assign_pair_touched [Zero N] (m : List (K × N)) (kv : K × N) :
    lookupKV (bitand_assign_pair m kv) kv.1 = gAndAssign (lookupKV m kv.1) kv.2 := by
  unfold bitand_assign_pair gAndAssign
  cases hv : lookupKV m kv.1 with
  | none => by_cases h1 : kv.2 < (0 : N) <;> simp [h1, hv]
  | some v => by_cases h1 : kv.2 < v <;> simp [h1, hv]

theorem bitand_assign_lookup [Zero N] (a b : List (K × N))
    (hb : (keys b).Nodup) (kv : K × N) (hkv : kv ∈ b) :
    lookupKV (bitand_assign a b) kv.1 = gAndAssign (lookupKV a kv.1) kv.2 :=
  foldl_lookupKV_touched bitand_assign_pair gAndAssign
    (fun m p k2 h => bitand_assign_pair_untouched m p k2 h)
    (fun m p => bitand_assign_pair_touched m p) b a hb kv hkv

theorem bitand_assign_lookup_of_not_key [Zero N] (a b : List (K × N))
    (k : K) (hk : ∀ p ∈ b, p.1 ≠ k) :
    lookupKV (bitand_assign a b) k = lookupKV a k :=
  foldl_lookupKV_untouched bitand_assign_pair
    (fun m p k2 h => bitand_assign_pair_untouched m p k2 h) b a k hk

end MergeLoops

/-! ### Characterization of `bitand` -/

section BitandLemmas

variable [DecidableEq K] [LinearOrder N]

/-- Value-level intersection: defined only where both sides are stored. -/
def gAnd (ov ow : Option N) : Option N :=
  match ov, ow with
  | some v, some w => some (min v w)
  | _, _ => none

theorem bitandGo_lookup (a : List (K × N)) :
    ∀ (rhs acc : List (K × N)), (keys a).Nodup →
      (∀ k2 ∈ keys a, lookupKV acc k2 = none) → ∀ k,
      lookupKV (bitandGo a rhs acc) k =
        (gAnd (lookupKV a k) (lookupKV rhs k)).or (lookupKV acc k) := by
  induction a with
  | nil => intro rhs acc _ _ k; simp [bitandGo, lookupKV, gAnd]
  | cons kv rest ih =>
    intro rhs acc hnd hacc k
    rw [keys_cons, List.nodup_cons] at hnd
    have hrestnone : lookupKV rest kv.1 = none :=
      lookupKV_eq_none_of_not_mem_keys hnd.1
    rw [bitandGo]
    cases hw : lookupKV rhs kv.1 with
    | some w =>
      rw [ih (removeKV rhs kv.1) (setKV acc kv.1 (min kv.2 w)) hnd.2 ?hacc2 k]
      case hacc2 =>
        intro k2 hk2
        have hne : k2 ≠ kv.1 := fun h => hnd.1 (h ▸ hk2)
        rw [lookupKV_setKV_ne _ _ _ _ hne]
        exact hacc k2 (List.mem_cons_of_mem _ hk2)
      by_cases hk : k = kv.1
      · subst hk
        rw [hrestnone, lookupKV_setKV_self, hw, lookupKV, if_pos rfl]
        simp [gAnd]
      · rw [lookupKV_setKV_ne _ _ _ _ hk, lookupKV_removeKV_ne _ _ _ hk,
          lookupKV, if_neg (fun h => hk h.symm)]
    | none =>
      rw [ih rhs acc hnd.2 (fun k2 hk2 => hacc k2 (List.mem_cons_of_mem _ hk2)) k]
      by_cases hk : k = kv.1
      · subst hk
        rw [hrestnone, hw, lookupKV, if_pos rfl,
          hacc kv.1 (List.mem_cons_self _ _)]
        simp [gAnd]
      · rw [lookupKV, if_neg (fun h => hk h.symm)]

/-- `bitand` stores exactly the keys present in both operands, each at the
minimum of the two stored counts. -/
theorem bitand_lookup (a b : List (K × N)) (ha : (keys a).Nodup) (k : K) :
    lookupKV (bitand a b) k = gAnd (lookupKV a k) (lookupKV b k) := by
  rw [bitand, bitandGo_lookup a b [] ha (fun _ _ => rfl) k]
  cases gAnd (lookupKV a k) (lookupKV b k) <;> rfl

end BitandLemmas

/-! ### Lemmas about `subtract` -/

section SubtractLemmas

variable [DecidableEq K] [LinearOrder N] [Zero N] [One N] [Sub N]

/-- Per-key effect of one `subtract` iteration on its own item. -/
def gSubtractOne (ov : Option N) : Option N :=
  match ov with
  | none => none
  | some v =>
    let v2 := if 0 < v then v - 1 else v
    if v2 = 0 then none else some v2

theorem subtractOne_lookup_self (m : List (K × N)) (x : K) :
    lookupKV (subtractOne m x) x = gSubtractOne (lookupKV m x) := by
  unfold subtractOne gSubtractOne
  cases hv : lookupKV m x with
  | none => simpa using hv
  | some v =>
    by_cases h2 : (if 0 < v then v - 1 else v) = 0 <;> simp [h2]

theorem subtractOne_untouched (m : List (K × N)) (x k : K) (h : k ≠ x) :
    lookupKV (subtractOne m x) k = lookupKV m k := by
  unfold subtractOne
  cases hv : lookupKV m x with
  | none => rfl
  | some v =>
    by_cases h2 : (if 0 < v then v - 1 else v) = 0 <;>
      simp [h2, lookupKV_removeKV_ne _ _ _ h, lookupKV_setKV_ne _ _ _ _ h]

theorem subtract_untouched (S : List K) (m : List (K × N)) (k : K)
    (hk : ∀ y ∈ S, y ≠ k) : lookupKV (subtract m S) k = lookupKV m k := by
  induction S generalizing m with
  | nil => rfl
  | cons x rest ih =>
    rw [subtract, List.foldl_cons]
    rw [show rest.foldl subtractOne (subtractOne m x) = subtract (subtractOne m x) rest from rfl]
    rw [ih (subtractOne m x) (fun y hy => hk y (List.mem_cons_of_mem _ hy))]
    exact subtractOne_untouched m x k (fun h => hk x (List.mem_cons_self _ _) h.symm)

theorem subtractOne_ne_some_zero (m : List (K × N)) (x : K) :
    lookupKV (subtractOne m x) x ≠ some 0 := by
  rw [subtractOne_lookup_self]
  unfold gSubtractOne
  cases lookupKV m x with
  | none => simp
  | some v =>
    by_cases h2 : (if 0 < v then v - 1 else v) = 0 <;> simp [h2]

theorem subtract_ne_some_zero (S : List K) (m : List (K × N)) (x : K)
    (hx : x ∈ S) : lookupKV (subtract m S) x ≠ some 0 := by
  induction S generalizing m with
  | nil => cases hx
  | cons y rest ih =>
    rw [subtract, List.foldl_cons]
    change lookupKV (subtract (subtractOne m y) rest) x ≠ some 0
    by_cases hxr : x ∈ rest
    · exact ih (subtractOne m y) hxr
    · have hxy : x = y := by
        rcases List.mem_cons.mp hx with h | h
        · exact h
        · exact absurd h hxr
      subst hxy
      rw [subtract_untouched rest (subtractOne m x) x (fun z hz hzx => hxr (hzx ▸ hz))]
      exact subtractOne_ne_some_zero m x

theorem subtractOne_neg_preserved (m : List (K × N)) (y x : K) (v : N)
    (hv : lookupKV m x = some v) (hneg : v < 0) :
    lookupKV (subtractOne m y) x = some v := by
  by_cases h : x = y
  · subst h
    rw [subtractOne_lookup_self, hv]
    unfold gSubtractOne
    have h1 : ¬ 0 < v := not_lt.mpr (le_of_lt hneg)
    have h2 : ¬ v = 0 := ne_of_lt hneg
    simp [h1, h2]
  · rw [subtractOne_untouched m y x h, hv]

theorem subtract_neg_preserved (S : List K) (m : List (K × N)) (x : K) (v : N)
    (hv : lookupKV m x = some v) (hneg : v < 0) :
    lookupKV (subtract m S) x = some v := by
  induction S generalizing m with
  | nil => exact hv
  | cons y rest ih =>
    rw [subtract, List.foldl_cons]
    exact ih (subtractOne m y) (subtractOne_neg_preserved m y x v hv hneg)

theorem subtractOne_none_preserved (m : List (K × N)) (y x : K)
    (hx : lookupKV m x = none) : lookupKV (subtractOne m y) x = none := by
  by_cases h : x = y
  · subst h
    rw [subtractOne_lookup_self, hx]
    rfl
  · rw [subtractOne_untouched m y x h]
    exact hx

theorem subtract_none_preserved (S : List K) (m : List (K × N)) (x : K)
    (hx : lookupKV m x = none) : lookupKV (subtract m S) x = none := by
  induction S generalizing m with
  | nil => exact hx
  | cons y rest ih =>
    rw [subtract, List.foldl_cons]
    exact ih (subtractOne m y) (subtractOne_none_preserved m y x hx)

end SubtractLemmas

/-! ### Counting lemmas for `init`/`update` and the round trip with
`subtract` (at the default unsigned count type) -/

section CountingLemmas

variable [DecidableEq K]

theorem update_lookup (S : List K) (m : List (K × Nat)) (k : K) :
    lookupKV (update m S) k =
      match lookupKV m k with
      | some v => some (v + S.count k)
      | none => if S.count k = 0 then none else some (S.count k) := by
  induction S generalizing m with
  | nil => cases h : lookupKV m k <;> simp [update, h]
  | cons x rest ih =>
    rw [update, List.foldl_cons]
    change lookupKV (update (incr m x) rest) k = _
    rw [ih (incr m x)]
    by_cases hk : k = x
    · subst hk
      rw [incr, lookupKV_setKV_self, List.count_cons_self]
      cases h : lookupKV m k with
      | some v =>
        show some (v + 1 + List.count k rest) = some (v + (List.count k rest + 1))
        exact congrArg some (by omega)
      | none =>
        show some (0 + 1 + List.count k rest)
          = if List.count k rest + 1 = 0 then none else some (List.count k rest + 1)
        rw [if_neg (by omega : ¬ List.count k rest + 1 = 0)]
        exact congrArg some (by omega)
    · rw [incr, lookupKV_setKV_ne _ _ _ _ hk,
        List.count_cons_of_ne (fun h => hk h) rest]

theorem init_lookup (S : List K) (k : K) :
    lookupKV (init (K := K) (N := Nat) S) k =
      if S.count k = 0 then none else some (S.count k) := by
  rw [init, update_lookup]
  rfl

theorem subtract_of_counts (S : List K) :
    ∀ m : List (K × Nat),
      (∀ k, lookupKV m k = if S.count k = 0 then none else some (S.count k)) →
      subtract m S = [] := by
  induction S with
  | nil =>
    intro m hm
    exact eq_nil_of_forall_lookupKV_none (fun k => by simpa using hm k)
  | cons x rest ih =>
    intro m hm
    rw [subtract, List.foldl_cons]
    change subtract (subtractOne m x) rest = []
    apply ih
    intro k
    by_cases hk : k = x
    · subst hk
      rw [subtractOne_lookup_self, hm k, List.count_cons_self]
      have h0 : ¬ rest.count k + 1 = 0 := by omega
      have h1 : 0 < rest.count k + 1 := by omega
      rw [if_neg h0]
      simp only [gSubtractOne, if_pos h1, Nat.add_sub_cancel]
    · rw [subtractOne_untouched m x k hk, hm k,
        List.count_cons_of_ne (fun h => hk h) rest]

end CountingLemmas

/-! ### The heap order `(Reverse count, key)` is a linear order -/

section HeapOrder

variable [LinearOrder K] [LinearOrder N]

theorem hLe_refl (p : N × K) : hLe p p := Or.inr ⟨rfl, le_refl _⟩

theorem hLe_total (p q : N × K) : hLe p q ∨ hLe q p := by
  unfold hLe
  rcases lt_trichotomy p.1 q.1 with h | h | h
  · exact Or.inr (Or.inl h)
  · rcases le_total p.2 q.2 with h2 | h2
    · exact Or.inl (Or.inr ⟨h, h2⟩)
    · exact Or.inr (Or.inr ⟨h.symm, h2⟩)
  · exact Or.inl (Or.inl h)

theorem hLe_trans {p q r : N × K} (h1 : hLe p q) (h2 : hLe q r) : hLe p r := by
  unfold hLe at h1 h2 ⊢
  rcases h1 with h1 | ⟨h1e, h1k⟩
  · rcases h2 with h2 | ⟨h2e, _⟩
    · exact Or.inl (lt_trans h2 h1)
    · exact Or.inl (h2e ▸ h1)
  · rcases h2 with h2 | ⟨h2e, h2k⟩
    · exact Or.inl (by rw [h1e]; exact h2)
    · exact Or.inr ⟨h1e.trans h2e, le_trans h1k h2k⟩

theorem hLe_antisymm {p q : N × K} (h1 : hLe p q) (h2 : hLe q p) : p = q := by
  unfold hLe at h1 h2
  rcases h1 with h1 | ⟨h1e, h1k⟩
  · rcases h2 with h2 | ⟨h2e, _⟩
    · exact absurd (lt_trans h1 h2) (lt_irrefl _)
    · exact absurd h1 (by rw [h2e]; exact lt_irrefl _)
  · rcases h2 with h2 | ⟨_, h2k⟩
    · exact absurd h2 (by rw [h1e]; exact lt_irrefl _)
    · exact Prod.ext h1e (le_antisymm h1k h2k)

theorem hLe_of_hLt {p q : N × K} (h : hLt p q) : hLe p q := by
  unfold hLt at h
  unfold hLe
  rcases h with h | ⟨he, hk⟩
  · exact Or.inl h
  · exact Or.inr ⟨he, le_of_lt hk⟩

theorem hLt_irrefl (p : N × K) : ¬ hLt p p := by
  unfold hLt
  rintro (h | ⟨_, h⟩) <;> exact lt_irrefl _ h

theorem hLt_of_hLe_of_ne {p q : N × K} (h : hLe p q) (hne : p ≠ q) : hLt p q := by
  unfold hLe at h
  unfold hLt
  rcases h with h | ⟨he, hk⟩
  · exact Or.inl h
  · refine Or.inr ⟨he, lt_of_le_of_ne hk (fun h2 => hne (Prod.ext he h2))⟩

theorem hLt_of_hLe_of_hLt {p q r : N × K} (h1 : hLe p q) (h2 : hLt q r) : hLt p r := by
  have h3 : hLe p r := hLe_trans h1 (hLe_of_hLt h2)
  refine hLt_of_hLe_of_ne h3 (fun he => ?_)
  subst he
  have hqp : q = p := hLe_antisymm (hLe_of_hLt h2) h1
  rw [hqp] at h2
  exact hLt_irrefl p h2

theorem hLt_trans {p q r : N × K} (h1 : hLt p q) (h2 : hLt q r) : hLt p r :=
  hLt_of_hLe_of_hLt (hLe_of_hLt h1) h2

theorem hLt_or_hLt_of_ne {p q : N × K} (hne : p ≠ q) : hLt p q ∨ hLt q p := by
  rcases hLe_total p q with h | h
  · exact Or.inl (hLt_of_hLe_of_ne h hne)
  · exact Or.inr (hLt_of_hLe_of_ne h (Ne.symm hne))

instance : IsTotal (N × K) hLe := ⟨hLe_total⟩

instance : IsTrans (N × K) hLe := ⟨fun _ _ _ => hLe_trans⟩

instance : IsAntisymm (N × K) hLe := ⟨fun _ _ => hLe_antisymm⟩

end HeapOrder

/-! ### Lemmas about `eraseItem` -/

section EraseItem

variable {A : Type} [DecidableEq A]

theorem eraseItem_sublist (l : List A) (x : A) :
    List.Sublist (eraseItem l x) l := by
  induction l with
  | nil => exact List.Sublist.refl _
  | cons y ys ih =>
    by_cases h : y = x
    · rw [eraseItem, if_pos h]
      exact List.sublist_cons_self y ys
    · rw [eraseItem, if_neg h]
      exact ih.cons₂ y

theorem eraseItem_perm {l : List A} {x : A} (h : x ∈ l) :
    List.Perm l (x :: eraseItem l x) := by
  induction l with
  | nil => cases h
  | cons y ys ih =>
    by_cases hyx : y = x
    · subst hyx
      rw [eraseItem, if_pos rfl]
    · rw [eraseItem, if_neg hyx]
      have hx : x ∈ ys := by
        rcases List.mem_cons.mp h with h2 | h2
        · exact absurd h2.symm hyx
        · exact h2
      exact ((ih hx).cons y).trans (List.Perm.swap x y _)

theorem mem_eraseItem_of_nodup :
    ∀ {l : List A}, l.Nodup → ∀ a x : A, (a ∈ eraseItem l x ↔ a ≠ x ∧ a ∈ l) := by
  intro l
  induction l with
  | nil =>
    intro _ a x
    simp [eraseItem]
  | cons y ys ih =>
    intro hnd a x
    have hnd2 := List.nodup_cons.mp hnd
    by_cases hyx : y = x
    · subst hyx
      rw [eraseItem, if_pos rfl]
      constructor
      · intro ha
        exact ⟨fun hax => hnd2.1 (hax ▸ ha), List.mem_cons_of_mem _ ha⟩
      · rintro ⟨hax, ha⟩
        rcases List.mem_cons.mp ha with h2 | h2
        · exact absurd h2 hax
        · exact h2
    · rw [eraseItem, if_neg hyx]
      constructor
      · intro ha
        rcases List.mem_cons.mp ha with rfl | h2
        · exact ⟨hyx, List.mem_cons_self _ _⟩
        · have h3 := (ih hnd2.2 a x).mp h2
          exact ⟨h3.1, List.mem_cons_of_mem _ h3.2⟩
      · rintro ⟨hax, ha⟩
        rcases List.mem_cons.mp ha with rfl | h2
        · exact List.mem_cons_self _ _
        · exact List.mem_cons_of_mem _ ((ih hnd2.2 a x).mpr ⟨hax, h2⟩)

end EraseItem

/-! ### The bounded-heap scan of `k_most_common_ordered` -/

section HeapScan

variable [LinearOrder K] [LinearOrder N]

theorem foldlPick_mem (xs : List (N × K)) :
    ∀ a, xs.foldl (fun a b => if hLe a b then b else a) a ∈ a :: xs := by
  induction xs with
  | nil => intro a; exact List.mem_cons_self a []
  | cons b xs ih =>
    intro a
    rw [List.foldl_cons]
    by_cases hab : hLe a b
    · rw [if_pos hab]
      rcases List.mem_cons.mp (ih b) with h | h
      · rw [h]
        exact List.mem_cons_of_mem a (List.mem_cons_self b xs)
      · exact List.mem_cons_of_mem a (List.mem_cons_of_mem b h)
    · rw [if_neg hab]
      rcases List.mem_cons.mp (ih a) with h | h
      · rw [h]
        exact List.mem_cons_self a (b :: xs)
      · exact List.mem_cons_of_mem a (List.mem_cons_of_mem b h)

theorem foldlPick_le (xs : List (N × K)) :
    ∀ a y, y ∈ a :: xs → hLe y (xs.foldl (fun a b => if hLe a b then b else a) a) := by
  induction xs with
  | nil =>
    intro a y hy
    rcases List.mem_cons.mp hy with rfl | h
    · exact hLe_refl y
    · exact absurd h (List.not_mem_nil y)
  | cons b xs ih =>
    intro a y hy
    rw [List.foldl_cons]
    have hpa : hLe a (if hLe a b then b else a) := by
      by_cases hab : hLe a b
      · rw [if_pos hab]; exact hab
      · rw [if_neg hab]; exact hLe_refl a
    have hpb : hLe b (if hLe a b then b else a) := by
      by_cases hab : hLe a b
      · rw [if_pos hab]; exact hLe_refl b
      · rw [if_neg hab]; exact (hLe_total a b).resolve_left hab
    have hroot := ih (if hLe a b then b else a) _ (List.mem_cons_self _ _)
    rcases List.mem_cons.mp hy with rfl | h
    · exact hLe_trans hpa hroot
    rcases List.mem_cons.mp h with rfl | h2
    · exact hLe_trans hpb hroot
    · exact ih _ y (List.mem_cons_of_mem _ h2)

theorem heapRoot_mem {l : List (N × K)} {r : N × K} (h : heapRoot l = some r) :
    r ∈ l := by
  cases l with
  | nil => cases h
  | cons x xs =>
    rw [heapRoot] at h
    have he := Option.some.inj h
    exact he ▸ foldlPick_mem xs x

theorem heapRoot_le {l : List (N × K)} {r : N × K} (h : heapRoot l = some r) :
    ∀ y ∈ l, hLe y r := by
  cases l with
  | nil => cases h
  | cons x xs =>
    rw [heapRoot] at h
    have he := Option.some.inj h
    intro y hy
    exact he ▸ foldlPick_le xs x y hy

theorem heapRoot_of_ne_nil {l : List (N × K)} (h : l ≠ []) :
    ∃ r, heapRoot l = some r := by
  cases l with
  | nil => exact absurd rfl h
  | cons x xs => exact ⟨_, rfl⟩

/-- If the retained structure holds as many elements as the seed, every
retained element is below any bound dominating the seed. -/
theorem mem_scan_lt {heap2 rest h d : List (N × K)} {b : N × K}
    (hnd : (heap2 ++ rest).Nodup) (hperm : List.Perm (heap2 ++ rest) (h ++ d))
    (hlen : h.length = heap2.length)
    (hsep : ∀ y ∈ h, ∀ z ∈ d, hLt y z)
    (hub : ∀ y ∈ heap2, hLt y b) : ∀ y ∈ h, hLt y b := by
  intro y hy
  have hnd2 := List.nodup_append.mp hnd
  have hysrc : y ∈ heap2 ∨ y ∈ rest :=
    List.mem_append.mp (hperm.mem_iff.mpr (List.mem_append_left d hy))
  rcases hysrc with h1 | h1
  · exact hub y h1
  · by_cases hsub : ∀ w ∈ heap2, w ∈ h
    · have hperm2 : List.Perm heap2 h :=
        (List.subperm_of_subset hnd2.1 hsub).perm_of_length_le (le_of_eq hlen)
      exact absurd h1 (hnd2.2.2 (hperm2.mem_iff.mpr hy))
    · push_neg at hsub
      obtain ⟨w, hw, hwnh⟩ := hsub
      have hwd : w ∈ d := by
        have hwhd : w ∈ h ++ d := hperm.mem_iff.mp (List.mem_append_left rest hw)
        rcases List.mem_append.mp hwhd with h2 | h2
        · exact absurd h2 hwnh
        · exact h2
      exact hLt_trans (hsep y hy w hwd) (hub w hw)

/-- Invariant of the scan phase: starting from a nonempty duplicate-free
seed, the scan succeeds and retains exactly as many items as the seed,
every discarded item dominating every retained one in the heap order. -/
theorem kScan_ex :
    ∀ (rest heap : List (N × K)), heap ≠ [] → (heap ++ rest).Nodup →
      ∃ h d, kScan heap rest = some h ∧
        List.Perm (heap ++ rest) (h ++ d) ∧
        h.length = heap.length ∧ h.Nodup ∧
        (∀ y ∈ h, ∀ z ∈ d, hLt y z) := by
  intro rest
  induction rest with
  | nil =>
    intro heap hne hnd
    refine ⟨heap, [], rfl, by simp, rfl, by simpa using hnd, ?_⟩
    intro y _ z hz
    exact absurd hz (List.not_mem_nil z)
  | cons x rest ih =>
    intro heap hne hnd
    obtain ⟨root, hroot⟩ := heapRoot_of_ne_nil hne
    have hrootmem : root ∈ heap := heapRoot_mem hroot
    have hrootle : ∀ y ∈ heap, hLe y root := heapRoot_le hroot
    have hsplit := List.nodup_append.mp hnd
    have hxrest : x ∉ rest := (List.nodup_cons.mp hsplit.2.1).1
    have hxheap : x ∉ heap := fun hx => hsplit.2.2 hx (List.mem_cons_self _ _)
    by_cases hcase : hLt x root
    · have hstep : kStep heap x = some (x :: eraseItem heap root) := by
        rw [kStep, hroot]
        show some (if hLt x root then x :: eraseItem heap root else heap) = _
        rw [if_pos hcase]
      have hnd2 : ((x :: eraseItem heap root) ++ rest).Nodup := by
        rw [List.nodup_append]
        refine ⟨List.nodup_cons.mpr
          ⟨fun hx2 => hxheap ((eraseItem_sublist heap root).subset hx2),
            hsplit.1.sublist (eraseItem_sublist heap root)⟩,
          (List.nodup_cons.mp hsplit.2.1).2, ?_⟩
        intro a ha har
        rcases List.mem_cons.mp ha with rfl | ha2
        · exact hxrest har
        · exact hsplit.2.2 ((eraseItem_sublist heap root).subset ha2)
            (List.mem_cons_of_mem _ har)
      obtain ⟨h, d, hscan, hperm, hlen, hnodh, hsep⟩ :=
        ih (x :: eraseItem heap root) (List.cons_ne_nil _ _) hnd2
      refine ⟨h, root :: d, ?_, ?_, ?_, hnodh, ?_⟩
      · simp only [kScan, hstep]
        exact hscan
      · have p1 : List.Perm (heap ++ x :: rest) ((root :: eraseItem heap root) ++ x :: rest) :=
          (eraseItem_perm hrootmem).append_right _
        rw [List.cons_append] at p1
        have p2 : List.Perm (eraseItem heap root ++ x :: rest)
            (x :: (eraseItem heap root ++ rest)) :=
          List.perm_middle
        exact p1.trans ((p2.cons root).trans ((hperm.cons root).trans List.perm_middle.symm))
      · have hlen2 : (x :: eraseItem heap root).length = heap.length :=
          ((eraseItem_perm hrootmem).length_eq).symm
        rw [hlen, hlen2]
      · intro y hy z hz
        rcases List.mem_cons.mp hz with rfl | hz2
        · refine mem_scan_lt hnd2 hperm hlen hsep ?_ y hy
          intro w hw
          rcases List.mem_cons.mp hw with rfl | hw2
          · exact hcase
          · have hmem := (mem_eraseItem_of_nodup hsplit.1 w z).mp hw2
            exact hLt_of_hLe_of_ne (hrootle w hmem.2) hmem.1
        · exact hsep y hy z hz2
    · have hstep : kStep heap x = some heap := by
        rw [kStep, hroot]
        show some (if hLt x root then x :: eraseItem heap root else heap) = _
        rw [if_neg hcase]
      have hndB : (heap ++ rest).Nodup :=
        hnd.sublist (List.Sublist.append_left (List.sublist_cons_self x rest) heap)
      obtain ⟨h, d, hscan, hperm, hlen, hnodh, hsep⟩ := ih heap hne hndB
      refine ⟨h, x :: d, ?_, ?_, hlen, hnodh, ?_⟩
      · simp only [kScan, hstep]
        exact hscan
      · have p1 : List.Perm (heap ++ x :: rest) (x :: (heap ++ rest)) := List.perm_middle
        exact p1.trans ((hperm.cons x).trans List.perm_middle.symm)
      · intro y hy z hz
        rcases List.mem_cons.mp hz with rfl | hz2
        · have hxroot : z ≠ root := fun he => hxheap (he ▸ hrootmem)
          have hrx : hLt root z := (hLt_or_hLt_of_ne hxroot).resolve_left hcase
          refine mem_scan_lt hndB hperm hlen hsep ?_ y hy
          intro w hw
          exact hLt_of_hLe_of_hLt (hrootle w hw) hrx
        · exact hsep y hy z hz2

/-- The scan phase always succeeds on a nonempty seed: the `expect` on the
empty heap is unreachable. -/
theorem kScan_isSome :
    ∀ (rest heap : List (N × K)), heap ≠ [] → ∃ h, kScan heap rest = some h := by
  intro rest
  induction rest with
  | nil =>
    intro heap _
    exact ⟨heap, rfl⟩
  | cons x rest ih =>
    intro heap hne
    obtain ⟨root, hroot⟩ := heapRoot_of_ne_nil hne
    by_cases hcase : hLt x root
    · have hstep : kStep heap x = some (x :: eraseItem heap root) := by
        rw [kStep, hroot]
        show some (if hLt x root then x :: eraseItem heap root else heap) = _
        rw [if_pos hcase]
      obtain ⟨h, hs⟩ := ih (x :: eraseItem heap root) (List.cons_ne_nil _ _)
      refine ⟨h, ?_⟩
      simp only [kScan, hstep]
      exact hs
    · have hstep : kStep heap x = some heap := by
        rw [kStep, hroot]
        show some (if hLt x root then x :: eraseItem heap root else heap) = _
        rw [if_neg hcase]
      obtain ⟨h, hs⟩ := ih heap hne
      refine ⟨h, ?_⟩
      simp only [kScan, hstep]
      exact hs

/-- Sorting what the scan retained yields the first `k` entries of the
fully sorted item list. -/
theorem kScan_take_drop (items : List (N × K)) (k : Nat)
    (hnd : items.Nodup) (hk : 0 < k) (hlt : k < items.length) :
    ∃ h, kScan (items.take k) (items.drop k) = some h ∧
      List.insertionSort hLe h = (List.insertionSort hLe items).take k := by
  have htk : (items.take k).length = k := by
    rw [List.length_take]
    omega
  have hne : items.take k ≠ [] := by
    intro h0
    rw [h0] at htk
    simp at htk
    omega
  have hnd2 : (items.take k ++ items.drop k).Nodup := by
    rw [List.take_append_drop]
    exact hnd
  obtain ⟨h, d, hscan, hperm, hlen, hnodh, hsep⟩ :=
    kScan_ex (items.drop k) (items.take k) hne hnd2
  refine ⟨h, hscan, ?_⟩
  have hperm2 : List.Perm items (h ++ d) := by
    rw [← List.take_append_drop k items]
    exact hperm
  have happ_sorted :
      List.Sorted hLe (List.insertionSort hLe h ++ List.insertionSort hLe d) := by
    refine List.pairwise_append.mpr
      ⟨List.sorted_insertionSort hLe h, List.sorted_insertionSort hLe d, ?_⟩
    intro a ha b hb
    exact hLe_of_hLt (hsep a ((List.perm_insertionSort hLe h).mem_iff.mp ha)
      b ((List.perm_insertionSort hLe d).mem_iff.mp hb))
  have happ_perm :
      List.Perm (List.insertionSort hLe h ++ List.insertionSort hLe d)
        (List.insertionSort hLe items) :=
    ((List.perm_insertionSort hLe h).append (List.perm_insertionSort hLe d)).trans
      (hperm2.symm.trans (List.perm_insertionSort hLe items).symm)
  have heq :=
    List.eq_of_perm_of_sorted happ_perm happ_sorted (List.sorted_insertionSort hLe items)
  have hlenh : (List.insertionSort hLe h).length = k := by
    rw [(List.perm_insertionSort hLe h).length_eq, hlen, htk]
  rw [← heq, ← hlenh]
  exact (List.take_left _ _).symm

end HeapScan

/-! ### Bridging the item order and the pair order -/

section SwapBridge

variable [LinearOrder K] [LinearOrder N]

theorem orderedInsert_swap (x : K × N) :
    ∀ L : List (K × N),
      List.orderedInsert hLe (x.2, x.1) (L.map fun p => (p.2, p.1))
        = (List.orderedInsert mLe x L).map fun p => (p.2, p.1) := by
  intro L
  induction L with
  | nil => rfl
  | cons b L ih =>
    rw [List.map_cons]
    by_cases hxb : mLe x b
    · have hxb2 : hLe (x.2, x.1) (b.2, b.1) := hxb
      rw [List.orderedInsert, List.orderedInsert, if_pos hxb, if_pos hxb2,
        List.map_cons, List.map_cons]
    · have hxb2 : ¬ hLe (x.2, x.1) (b.2, b.1) := hxb
      rw [List.orderedInsert, List.orderedInsert, if_neg hxb, if_neg hxb2,
        List.map_cons, ih]

theorem insertionSort_swap :
    ∀ L : List (K × N),
      List.insertionSort hLe (L.map fun p => (p.2, p.1))
        = (List.insertionSort mLe L).map fun p => (p.2, p.1) := by
  intro L
  induction L with
  | nil => rfl
  | cons b L ih =>
    rw [List.map_cons, List.insertionSort, List.insertionSort, ih, orderedInsert_swap]

theorem map_swap_swap (l : List (K × N)) :
    (l.map fun p => (p.2, p.1)).map (fun q => (q.2, q.1)) = l := by
  induction l with
  | nil => rfl
  | cons p l ih => rw [List.map_cons, List.map_cons, ih]

end SwapBridge

/-! ### Further helper lemmas for the claim theorems -/

section MoreHelpers

variable [DecidableEq K]

theorem exists_of_mem_keys {m : List (K × N)} {k : K} (h : k ∈ keys m) :
    ∃ p ∈ m, p.1 = k := by
  rw [keys] at h
  obtain ⟨p, hp, he⟩ := List.mem_map.mp h
  exact ⟨p, hp, he⟩

theorem lookupKV_append_single_self (m : List (K × N)) (k : K) (v : N)
    (h : lookupKV m k = none) : lookupKV (m ++ [(k, v)]) k = some v := by
  induction m with
  | nil => simp [lookupKV]
  | cons p rest ih =>
    rw [lookupKV] at h
    rw [List.cons_append, lookupKV]
    by_cases hp : p.1 = k
    · rw [if_pos hp] at h
      cases h
    · rw [if_neg hp] at h ⊢
      exact ih h

theorem bitor_assign_index_eq [LinearOrder N] [Zero N]
    (a b : List (K × N)) (hb : (keys b).Nodup) (k : K) :
    index (bitor_assign a b) k = index (bitor a b) k := by
  by_cases hk : k ∈ keys b
  · obtain ⟨p, hp, he⟩ := exists_of_mem_keys hk
    subst he
    rw [index, index, bitor_assign_lookup a b hb p hp, bitor_lookup a b hb p hp]
    cases hv : lookupKV a p.1 with
    | some v =>
      show (if v < p.2 then some p.2 else some v).getD 0 = (some (max v p.2)).getD 0
      by_cases h1 : v < p.2
      · rw [if_pos h1, max_eq_right (le_of_lt h1)]
      · rw [if_neg h1, max_eq_left (le_of_not_lt h1)]
    | none =>
      show (if 0 < p.2 then some p.2 else none).getD 0 = (some (max 0 p.2)).getD 0
      by_cases h1 : 0 < p.2
      · rw [if_pos h1, max_eq_right (le_of_lt h1)]
      · rw [if_neg h1, max_eq_left (le_of_not_lt h1)]
        rfl
  · have hk2 : ∀ p ∈ b, p.1 ≠ k := by
      intro p hp he
      exact hk (he ▸ mem_keys_of_mem hp)
    rw [index, index, bitor_assign_lookup_of_not_key a b k hk2,
      bitor_lookup_of_not_key a b k hk2]

theorem bitor_assign_eq_bitor_of_pos [LinearOrder N] [Zero N]
    (a b : List (K × N)) (hb : (keys b).Nodup)
    (hpos : ∀ p ∈ b, lookupKV a p.1 = none → 0 < p.2) (k : K) :
    lookupKV (bitor_assign a b) k = lookupKV (bitor a b) k := by
  by_cases hk : k ∈ keys b
  · obtain ⟨p, hp, he⟩ := exists_of_mem_keys hk
    subst he
    rw [bitor_assign_lookup a b hb p hp, bitor_lookup a b hb p hp]
    cases hv : lookupKV a p.1 with
    | some v =>
      show (if v < p.2 then some p.2 else some v) = some (max v p.2)
      by_cases h1 : v < p.2
      · rw [if_pos h1, max_eq_right (le_of_lt h1)]
      · rw [if_neg h1, max_eq_left (le_of_not_lt h1)]
    | none =>
      have h1 : 0 < p.2 := hpos p hp hv
      show (if 0 < p.2 then some p.2 else none) = some (max 0 p.2)
      rw [if_pos h1, max_eq_right (le_of_lt h1)]
  · have hk2 : ∀ p ∈ b, p.1 ≠ k := by
      intro p hp he
      exact hk (he ▸ mem_keys_of_mem hp)
    rw [bitor_assign_lookup_of_not_key a b k hk2, bitor_lookup_of_not_key a b k hk2]

end MoreHelpers

/-! ### Claim theorems -/

/-- C1: for every counter with pairwise-distinct keys and every `k`,
`k_most_common_ordered(k)` returns exactly the first `min(k, n)` elements
of `most_common_ordered()`, including the order among equal-count items;
`k = 0` yields the empty vector and `k ≥ n` the full ranking. -/
theorem k_most_common_ordered_eq_take [LinearOrder K] [LinearOrder N]
    (m : List (K × N)) (hm : (keys m).Nodup) (k : Nat) :
    k_most_common_ordered m k = some ((most_common_ordered m).take k) := by
  unfold k_most_common_ordered
  by_cases h0 : k = 0
  · subst h0
    rw [if_pos rfl, List.take_zero]
  rw [if_neg h0]
  by_cases hbig : m.length ≤ k
  · rw [if_pos hbig]
    congr 1
    rw [List.take_of_length_le]
    rw [most_common_ordered, (List.perm_insertionSort mLe m).length_eq]
    exact hbig
  · rw [if_neg hbig]
    have hndm : m.Nodup := List.Nodup.of_map Prod.fst hm
    have hswapinj : Function.Injective (fun p : K × N => (p.2, p.1)) := by
      intro p q hpq
      have h1 := congrArg Prod.fst hpq
      have h2 := congrArg Prod.snd hpq
      exact Prod.ext h2 h1
    have hnditems : (m.map fun p => (p.2, p.1)).Nodup := hndm.map hswapinj
    obtain ⟨h, hscan, hsort⟩ := kScan_take_drop (m.map fun p => (p.2, p.1)) k hnditems
      (Nat.pos_of_ne_zero h0) (by rw [List.length_map]; omega)
    show (match kScan ((m.map fun p => (p.2, p.1)).take k)
        ((m.map fun p => (p.2, p.1)).drop k) with
      | none => none
      | some heap => some ((List.insertionSort hLe heap).map fun q => (q.2, q.1)))
      = some ((most_common_ordered m).take k)
    rw [hscan]
    show some ((List.insertionSort hLe h).map fun q => (q.2, q.1))
      = some ((most_common_ordered m).take k)
    rw [hsort, insertionSort_swap m, ← List.map_take, map_swap_swap]
    rfl

/-- C1 witness: a concrete counter and `k`. -/
theorem k_most_common_ordered_eq_take_witness :
    k_most_common_ordered [((0 : Nat), (2 : Nat)), (1, 1), (2, 2)] 2
      = some ((most_common_ordered [((0 : Nat), (2 : Nat)), (1, 1), (2, 2)]).take 2) :=
  k_most_common_ordered_eq_take [((0 : Nat), (2 : Nat)), (1, 1), (2, 2)] (by decide) 2

/-- C9: under `0 < k < n` (n the number of distinct keys), the scan phase
never observes an empty heap: the fatal `expect("the heap is empty")`
branch, modelled by the `none` result, is unreachable. -/
theorem k_most_common_no_panic [LinearOrder K] [LinearOrder N]
    (m : List (K × N)) (hm : (keys m).Nodup) (k : Nat)
    (hk : 0 < k) (hn : k < m.length) :
    (k_most_common_ordered m k).isSome = true := by
  unfold k_most_common_ordered
  rw [if_neg (by omega : ¬ k = 0), if_neg (by omega : ¬ m.length ≤ k)]
  have htk : ((m.map fun p => (p.2, p.1)).take k).length = k := by
    rw [List.length_take, List.length_map]
    omega
  have hne : (m.map fun p => (p.2, p.1)).take k ≠ [] := by
    intro h0
    rw [h0] at htk
    simp at htk
    omega
  obtain ⟨h, hs⟩ := kScan_isSome ((m.map fun p => (p.2, p.1)).drop k)
    ((m.map fun p => (p.2, p.1)).take k) hne
  show (match kScan ((m.map fun p : K × N => (p.2, p.1)).take k)
      ((m.map fun p : K × N => (p.2, p.1)).drop k) with
    | none => none
    | some heap => some ((List.insertionSort hLe heap).map fun q : N × K => (q.2, q.1))).isSome
    = true
  rw [hs]
  rfl

/-- C9 witness: a concrete counter with `0 < k < n`. -/
theorem k_most_common_no_panic_witness :
    (k_most_common_ordered [((0 : Nat), (5 : Nat)), (1, 3)] 1).isSome = true :=
  k_most_common_no_panic [((0 : Nat), (5 : Nat)), (1, 3)] (by decide) 1
    (by decide) (by decide)

/-- C2 counterexample: a counter storing a negative count keeps that entry
after `subtract` touches its key, so a touched key can remain mapped to a
count that is not strictly positive. -/
theorem subtract_negative_cex :
    lookupKV (subtract [((0 : Nat), (-1 : Int))] [0]) 0 = some (-1)
    ∧ ((-1 : Int) < 0) := by
  constructor
  · rfl
  · decide

/-- C2 (amended): after `subtract(S)` a touched key is never left mapped to
a stored zero; an entry holding a negative count when touched is left
unchanged (not removed); keys of `S` absent from the store are silently
ignored. -/
theorem subtract_touched_spec [DecidableEq K] [LinearOrder N] [Zero N] [One N] [Sub N]
    (m3 : List (K × N)) (S3 : List K) (x3 : K) (hx3 : x3 ∈ S3)
    (m : List (K × N)) (S : List K) (x : K) (v : N)
    (hv : lookupKV m x = some v) (hneg : v < 0)
    (m2 : List (K × N)) (S2 : List K) (x2 : K) (hx2 : lookupKV m2 x2 = none) :
    lookupKV (subtract m3 S3) x3 ≠ some 0
    ∧ lookupKV (subtract m S) x = some v
    ∧ lookupKV (subtract m2 S2) x2 = none :=
  ⟨subtract_ne_some_zero S3 m3 x3 hx3,
    subtract_neg_preserved S m x v hv hneg,
    subtract_none_preserved S2 m2 x2 hx2⟩

/-- C2 witness: concrete stores for all three touched-key scenarios. -/
theorem subtract_touched_spec_witness :
    lookupKV (subtract [((0 : Nat), (2 : Int))] [0]) 0 ≠ some 0
    ∧ lookupKV (subtract [((1 : Nat), (-1 : Int))] [1, 1]) 1 = some (-1)
    ∧ lookupKV (subtract ([] : List (Nat × Int)) [5]) 7 = none :=
  subtract_touched_spec [((0 : Nat), (2 : Int))] [0] 0 (by decide)
    [((1 : Nat), (-1 : Int))] [1, 1] 1 (-1) (by decide) (by decide)
    [] [5] 7 (by decide)

/-- C3: evaluating both sides of the claimed equivalence at the failing
input `a = {0: 3}`, `b = {}`: the in-place `a &= b` leaves the key `0`
(absent from `b`) untouched, while the value-level `a & b` drops it, as the
operator's own documentation (`c[x] == min(c[x], d[x])`) requires. -/
theorem bitand_assign_bug_eval :
    bitand_assign [((0 : Nat), (3 : Nat))] [] = [(0, 3)]
    ∧ bitand [((0 : Nat), (3 : Nat))] [] = [] := by
  constructor
  · rfl
  · rfl

/-- C4 counterexample: for a signed counter, a key present only in the left
operand of the union keeps its negative count, instead of the claimed
maximum against the absent right count read as zero. -/
theorem bitor_negative_cex :
    lookupKV (bitor [((0 : Nat), (-1 : Int))] []) 0 = some (-1)
    ∧ max (-1 : Int) 0 = 0 := by
  constructor
  · rfl
  · decide

/-- C4 (amended): the intersection contains exactly the keys present in
both operands, each at the minimum of the two stored counts (`gAnd`); the
union maps every key of the right operand to the maximum of the right
count and the left count read as zero when absent (`gOr`, materializing
the key even when that maximum is zero), and leaves keys not in the right
operand exactly as stored in the left operand — including negative counts,
which are not clamped against the implicit zero. -/
theorem bitand_bitor_lookup_spec [DecidableEq K] [LinearOrder N] [Zero N]
    (a b : List (K × N)) (ha : (keys a).Nodup) (hb : (keys b).Nodup)
    (k : K) (kv : K × N) (hkv : kv ∈ b) (k2 : K) (hk2 : ∀ p ∈ b, p.1 ≠ k2) :
    lookupKV (bitand a b) k = gAnd (lookupKV a k) (lookupKV b k)
    ∧ lookupKV (bitor a b) kv.1 = gOr (lookupKV a kv.1) kv.2
    ∧ lookupKV (bitor a b) k2 = lookupKV a k2 :=
  ⟨bitand_lookup a b ha k, bitor_lookup a b hb kv hkv,
    bitor_lookup_of_not_key a b k2 hk2⟩

/-- C4 witness: a signed instance exercising all three conjuncts. -/
theorem bitand_bitor_lookup_spec_witness :
    lookupKV (bitand [((0 : Nat), (3 : Int)), (1, 1)] [(0, 2), (2, 5)]) 0
      = gAnd (lookupKV [((0 : Nat), (3 : Int)), (1, 1)] 0)
          (lookupKV [((0 : Nat), (2 : Int)), (2, 5)] 0)
    ∧ lookupKV (bitor [((0 : Nat), (3 : Int)), (1, 1)] [(0, 2), (2, 5)]) 0
      = gOr (lookupKV [((0 : Nat), (3 : Int)), (1, 1)] 0) 2
    ∧ lookupKV (bitor [((0 : Nat), (3 : Int)), (1, 1)] [(0, 2), (2, 5)]) 1
      = lookupKV [((0 : Nat), (3 : Int)), (1, 1)] 1 :=
  bitand_bitor_lookup_spec [((0 : Nat), (3 : Int)), (1, 1)] [(0, 2), (2, 5)]
    (by decide) (by decide) 0 (0, 2) (by decide) 1 (by decide)

/-- C5: `is_subset` holds iff the left indexed count is bounded by the
right one on every key of either operand, `is_superset` is the mirror
predicate over the same chained key set, and `is_subset a b` coincides with
`is_superset b a` — for any ordered count type, signed included. -/
theorem is_subset_is_superset_spec [DecidableEq K] [LinearOrder N] [Zero N]
    (a b : List (K × N)) :
    (is_subset a b = true ↔ ∀ k ∈ keys a ++ keys b, index a k ≤ index b k)
    ∧ (is_superset a b = true ↔ ∀ k ∈ keys a ++ keys b, index b k ≤ index a k)
    ∧ is_subset a b = is_superset b a := by
  refine ⟨?_, ?_, ?_⟩
  · rw [is_subset, List.all_eq_true]
    constructor
    · intro h k hk
      exact of_decide_eq_true (h k hk)
    · intro h k hk
      exact decide_eq_true (h k hk)
  · rw [is_superset, List.all_eq_true]
    constructor
    · intro h k hk
      exact of_decide_eq_true (h k hk)
    · intro h k hk
      exact decide_eq_true (h k hk)
  · have hiff : (is_subset a b = true) ↔ (is_superset b a = true) := by
      rw [is_subset, is_superset, List.all_eq_true, List.all_eq_true]
      constructor
      · intro h k hk
        refine h k ?_
        rcases List.mem_append.mp hk with h2 | h2
        · exact List.mem_append_right _ h2
        · exact List.mem_append_left _ h2
      · intro h k hk
        refine h k ?_
        rcases List.mem_append.mp hk with h2 | h2
        · exact List.mem_append_right _ h2
        · exact List.mem_append_left _ h2
    exact Bool.eq_iff_iff.mpr hiff

/-- C5 witness: a signed instance of the subset/superset mirror identity. -/
theorem is_subset_is_superset_spec_witness :
    is_subset [((0 : Nat), (-2 : Int))] [(1, 3)]
      = is_superset [((1 : Nat), (3 : Int))] [(0, -2)] :=
  (is_subset_is_superset_spec [((0 : Nat), (-2 : Int))] [(1, 3)]).2.2

/-- C6: building a counter from a sequence and subtracting the same
sequence empties the store (default unsigned count type). -/
theorem init_subtract_empty [DecidableEq K] (S : List K) :
    subtract (init (K := K) (N := Nat) S) S = [] :=
  subtract_of_counts S _ (fun k => init_lookup S k)

/-- C7: `a - b` is `a -= b`; for each entry of `b`, a present left count at
least the right count is decreased by it (the entry removed when the result
is zero), a smaller left count causes removal, an absent key stays absent
(`gSub`); no touched key is left with a negative stored count; entries for
keys not in `b` are unchanged. -/
theorem sub_spec [DecidableEq K] [LinearOrder N] [Zero N] [Sub N]
    (a b : List (K × N)) (hb : (keys b).Nodup)
    (hsub : ∀ x y : N, y ≤ x → 0 ≤ x - y)
    (kv : K × N) (hkv : kv ∈ b) (k : K) (hk : ∀ p ∈ b, p.1 ≠ k) :
    Counter.sub a b = sub_assign a b
    ∧ lookupKV (sub_assign a b) kv.1 = gSub (lookupKV a kv.1) kv.2
    ∧ 0 ≤ (lookupKV (sub_assign a b) kv.1).getD 0
    ∧ lookupKV (sub_assign a b) k = lookupKV a k := by
  refine ⟨rfl, sub_assign_lookup a b hb kv hkv, ?_,
    sub_assign_lookup_of_not_key a b k hk⟩
  rw [sub_assign_lookup a b hb kv hkv]
  unfold gSub
  cases hv : lookupKV a kv.1 with
  | none => exact le_refl 0
  | some v =>
    by_cases h1 : kv.2 ≤ v
    · by_cases h2 : v - kv.2 = 0
      · simp only [if_pos h1, if_pos h2, Option.getD_none]
        exact le_refl 0
      · simp only [if_pos h1, if_neg h2, Option.getD_some]
        exact hsub v kv.2 h1
    · simp only [if_neg h1, Option.getD_none]
      exact le_refl 0

/-- C7 witness: a concrete subtractive merge over signed counts. -/
theorem sub_spec_witness :
    Counter.sub [((0 : Nat), (3 : Int)), (1, 2)] [(0, 3), (2, 9)]
      = sub_assign [((0 : Nat), (3 : Int)), (1, 2)] [(0, 3), (2, 9)]
    ∧ lookupKV (sub_assign [((0 : Nat), (3 : Int)), (1, 2)] [(0, 3), (2, 9)]) 0
      = gSub (lookupKV [((0 : Nat), (3 : Int)), (1, 2)] 0) 3
    ∧ 0 ≤ (lookupKV (sub_assign [((0 : Nat), (3 : Int)), (1, 2)] [(0, 3), (2, 9)]) 0).getD 0
    ∧ lookupKV (sub_assign [((0 : Nat), (3 : Int)), (1, 2)] [(0, 3), (2, 9)]) 1
      = lookupKV [((0 : Nat), (3 : Int)), (1, 2)] 1 :=
  sub_spec [((0 : Nat), (3 : Int)), (1, 2)] [(0, 3), (2, 9)] (by decide)
    (fun x y h => by omega) (0, 3) (by decide) 1 (by decide)

/-- C8: reading by key returns the stored count, or zero when absent,
without touching the store (the `Index` impl borrows the map immutably and
only reads); obtaining a mutable slot for an absent key materializes a zero
entry, growing the store by exactly one entry and leaving the key present,
while a present key leaves the store unchanged. -/
theorem index_spec [DecidableEq K] [Zero N]
    (m : List (K × N)) (k : K) (v : N) (hsome : lookupKV m k = some v)
    (m2 : List (K × N)) (k2 : K) (hnone : lookupKV m2 k2 = none) :
    index m k = v
    ∧ index m2 k2 = 0
    ∧ index_mut m k = m
    ∧ (index_mut m2 k2).length = m2.length + 1
    ∧ lookupKV (index_mut m2 k2) k2 = some 0 := by
  refine ⟨?_, ?_, ?_, ?_, ?_⟩
  · rw [index, hsome]
    rfl
  · rw [index, hnone]
    rfl
  · rw [index_mut, hsome]
  · rw [index_mut, hnone]
    simp
  · rw [index_mut, hnone]
    exact lookupKV_append_single_self m2 k2 0 hnone

/-- C8 witness: a present and an absent key. -/
theorem index_spec_witness :
    index [((0 : Nat), (5 : Nat))] 0 = 5
    ∧ index ([] : List (Nat × Nat)) 0 = 0
    ∧ index_mut [((0 : Nat), (5 : Nat))] 0 = [(0, 5)]
    ∧ (index_mut ([] : List (Nat × Nat)) 0).length = ([] : List (Nat × Nat)).length + 1
    ∧ lookupKV (index_mut ([] : List (Nat × Nat)) 0) 0 = some 0 :=
  index_spec [((0 : Nat), (5 : Nat))] 0 5 (by decide) [] 0 (by decide)

/-- C10 counterexample: with an explicit zero-count entry in the right
operand, the in-place union skips the absent key while the value-level
union materializes it, so the two stores differ. -/
theorem bitor_assign_cex :
    bitor_assign ([] : List (Nat × Nat)) [(0, 0)] = []
    ∧ bitor ([] : List (Nat × Nat)) [(0, 0)] = [(0, 0)] := by
  constructor
  · rfl
  · rfl

/-- C10 (amended): `a |= b` equals `a | b` as stores whenever every key of
`b` absent from `a` carries a strictly positive count; without that
proviso the two still agree on every count read through the zero-defaulting
index, the only difference being that `a | b` materializes a zero entry for
a key of `b` absent from `a` with non-positive count while `a |= b` leaves
it absent. -/
theorem bitor_assign_spec [DecidableEq K] [LinearOrder N] [Zero N]
    (a b : List (K × N)) (hb : (keys b).Nodup)
    (hpos : ∀ p ∈ b, lookupKV a p.1 = none → 0 < p.2) (k : K)
    (a2 b2 : List (K × N)) (hb2 : (keys b2).Nodup) (k2 : K) :
    lookupKV (bitor_assign a b) k = lookupKV (bitor a b) k
    ∧ index (bitor_assign a2 b2) k2 = index (bitor a2 b2) k2 :=
  ⟨bitor_assign_eq_bitor_of_pos a b hb hpos k,
    bitor_assign_index_eq a2 b2 hb2 k2⟩

/-- C10 witness: a positive right operand (store equality) and a
zero-count right operand (index-level agreement). -/
theorem bitor_assign_spec_witness :
    lookupKV (bitor_assign [((0 : Nat), (1 : Nat))] [(0, 4), (1, 2)]) 0
      = lookupKV (bitor [((0 : Nat), (1 : Nat))] [(0, 4), (1, 2)]) 0
    ∧ index (bitor_assign ([] : List (Nat × Nat)) [(0, 0)]) 0
      = index (bitor ([] : List (Nat × Nat)) [(0, 0)]) 0 :=
  bitor_assign_spec [((0 : Nat), (1 : Nat))] [(0, 4), (1, 2)] (by decide)
    (by decide) 0 [] [(0, 0)] (by decide) 0

end Counter
